import Mathlib

/-!
Verification of the MCQ simulator's persistence and review-scheduling core
(`src/src/App.tsx`).  JavaScript values flowing through `localStorage` are
modelled by a `Json` inductive; stored raw strings by `Raw`; the storage
key space by `LS`.  Functions mirror the source: `sanitize`, `loadStore`,
`mutateStore`, `upsertSession`, `loadDrillState`, `drillPool`,
`pickNextDrillItem`, `setExplanation`, `setScreenshot`.
-/

/-- A JSON value (JS numbers restricted to integers, which is all the
persistence layer stores). Objects are ordered association lists, matching
JS property-insertion order. -/
inductive Json where
  | null : Json
  | bool : Bool → Json
  | num : Int → Json
  | str : String → Json
  | arr : List Json → Json
  | obj : List (String × Json) → Json


/-- Lookup of a key in an ordered association list (JS object property read). -/
def lookupA {β : Type} : List (String × β) → String → Option β
  | [], _ => none
  | (k', v) :: rest, k => if k' = k then some v else lookupA rest k

/-- JS property assignment `o[k] = v`: overwrite in place if the key exists
(keeping its position), else append. Also the semantics of a later key in an
object literal / spread, and of `Map.set`. -/
def setAssoc {β : Type} : List (String × β) → String → β → List (String × β)
  | [], k, v => [(k, v)]
  | (k', v') :: rest, k, v =>
      if k' = k then (k', v) :: rest else (k', v') :: setAssoc rest k v

/-- JS property access `j.k` / `j?.[k]`: a value for object keys, `undefined`
(here `none`) on every non-object. -/
def getF : Json → String → Option Json
  | Json.obj fs, k => lookupA fs k
  | _, _ => none

/-- JS truthiness of a value. -/
def jsTruthy : Json → Bool
  | Json.null => false
  | Json.bool b => b
  | Json.num n => n ≠ 0
  | Json.str s => s ≠ ""
  | Json.arr _ => true
  | Json.obj _ => true

/-- `raw?.k ?? d`: property read with nullish coalescing to a default. -/
def getNN (j : Json) (k : String) (d : Json) : Json :=
  match getF j k with
  | some Json.null => d
  | some v => v
  | none => d

/-- A raw string held in a `localStorage` slot: the empty string (JS-falsy),
non-JSON text (`JSON.parse` throws), or the serialization of a JSON value. -/
inductive Raw where
  | emptyStr : Raw
  | garbage : Raw
  | jsonText : Json → Raw


/-- `JSON.parse` on a raw string. -/
def parseRaw : Raw → Option Json
  | Raw.emptyStr => none
  | Raw.garbage => none
  | Raw.jsonText j => some j

/-- JS truthiness of a `localStorage.getItem` result (`null` and `""` are falsy). -/
def rawTruthy : Option Raw → Bool
  | none => false
  | some Raw.emptyStr => false
  | some _ => true

/-- The `localStorage` slots used by the session store: the primary record
(`mcqSessionsV1`) and its backup (`mcqSessionsV1__backup`). -/
structure LS where
  primary : Option Raw
  backup : Option Raw


/-! ## Session store (`App.tsx` lines 99-178) -/

/-- The validated root `Store` (`{ sessions: SessionMeta[] }`); after `sanitize`
each element is a JSON object, so sessions are kept as `Json` values. -/
structure StoreJ where
  sessions : List Json

/-- `isSession` (line 99): minimal duck-typed contract — truthy, string `id`,
array `answers`, array `perQuestionSec`. -/
def isSession (s : Json) : Bool :=
  jsTruthy s &&
    (match getF s "id" with | some (Json.str _) => true | _ => false) &&
    (match getF s "answers" with | some (Json.arr _) => true | _ => false) &&
    (match getF s "perQuestionSec" with | some (Json.arr _) => true | _ => false)

/-- `normalizeAnswer` (line 48): rebuild an `Answer` object, nullish-coalescing
each field to its default. -/
def normalizeAnswerJ (raw : Json) : Json :=
  Json.obj
    [ ("choice", getNN raw "choice" Json.null),
      ("other", getNN raw "other" (Json.str "")),
      ("correctChoice", getNN raw "correctChoice" Json.null),
      ("explanation", getNN raw "explanation" (Json.str "")),
      ("pinned", getNN raw "pinned" (Json.bool false)),
      ("screenshot", getNN raw "screenshot" Json.null) ]

/-- The fields of a JS object (`...s` spreads own enumerable properties;
non-objects reached here would spread to nothing). -/
def fieldsOf : Json → List (String × Json)
  | Json.obj fs => fs
  | _ => []

/-- `addMissingFields` (line 103): build `{ subject, version, ...s, answers }`.
The computed `subject`/`version` come first, then `s`'s own properties
overwrite them in place, then the normalized `answers` overwrites that key. -/
def addMissingFields (s : Json) : Json :=
  let subject : Json :=
    match getF s "subject" with
    | some (Json.str t) =>
        if t = "math1" ∨ t = "math2" ∨ t = "physics" then Json.str t
        else Json.str "math1"
    | _ => Json.str "math1"
  let answers : List Json :=
    match getF s "answers" with
    | some (Json.arr xs) => xs.map normalizeAnswerJ
    | _ => []
  let base : List (String × Json) := [("subject", subject), ("version", Json.num 1)]
  let merged := (fieldsOf s).foldl (fun acc kv => setAssoc acc kv.1 kv.2) base
  Json.obj (setAssoc merged "answers" (Json.arr answers))

/-- `sanitize` (line 110): reject non-objects and objects without an array
`sessions`; keep only elements passing `isSession`, migrated by
`addMissingFields`. -/
def sanitize (store : Json) : Option StoreJ :=
  if ¬ (jsTruthy store && (match store with | Json.obj _ => true | Json.arr _ => true | _ => false)) then
    none
  else
    match getF store "sessions" with
    | some (Json.arr xs) => some ⟨(xs.filter isSession).map addMissingFields⟩
    | _ => none

/-- `JSON.stringify` of a `Store` value. -/
def encodeStore (st : StoreJ) : Json :=
  Json.obj [("sessions", Json.arr st.sessions)]

/-- The empty store created by the reset paths of `loadStore`. -/
def emptyStoreJ : StoreJ := ⟨[]⟩

/-- The reset path of `loadStore` (lines 125-128 and 150-153): persist an empty
store to both slots and return it. -/
def resetBoth (_ls : LS) : StoreJ × LS :=
  (emptyStoreJ,
    ⟨some (Raw.jsonText (encodeStore emptyStoreJ)),
     some (Raw.jsonText (encodeStore emptyStoreJ))⟩)

/-- The backup-recovery path of `loadStore` (lines 134-139 and 141-148): if the
backup is truthy, parses and sanitizes, promote it to the primary slot and
return it; otherwise reset both slots to an empty store.  (When the primary
merely fails sanitize and the backup then fails `JSON.parse`, control falls
into the `catch` block, which re-reads the same backup and fails again, so
both source paths reduce to this function.) -/
def loadBackup (ls : LS) : StoreJ × LS :=
  if rawTruthy ls.backup then
    match ls.backup with
    | some b =>
        (match parseRaw b with
         | some parsedB =>
             (match sanitize parsedB with
              | some cleanB =>
                  (cleanB, { ls with primary := some (Raw.jsonText (encodeStore cleanB)) })
              | none => resetBoth ls)
         | none => resetBoth ls)
    | none => resetBoth ls
  else resetBoth ls

/-- `loadStore` (line 122): absent/falsy primary initializes both slots; a
parsable, sanitizable primary is returned as-is; otherwise fall back to the
backup slot. -/
def loadStore (ls : LS) : StoreJ × LS :=
  if rawTruthy ls.primary then
    match ls.primary with
    | some raw =>
        (match parseRaw raw with
         | some parsed =>
             (match sanitize parsed with
              | some clean => (clean, ls)
              | none => loadBackup ls)
         | none => loadBackup ls)
    | none => resetBoth ls
  else resetBoth ls

/-- `mutateStore` (line 156): load, apply the transform to a (structured) clone,
validate; on failure return the pre-transform store untouched, on success copy
the current primary raw value into the backup slot and write the new value. -/
def mutateStore (fn : StoreJ → Json) (ls : LS) : StoreJ × LS :=
  let cur := loadStore ls
  let updated := fn cur.1
  match sanitize updated with
  | none => cur
  | some clean =>
      let ls2 := if rawTruthy cur.2.primary then { cur.2 with backup := cur.2.primary } else cur.2
      (clean, { ls2 with primary := some (Raw.jsonText (encodeStore clean)) })

/-- JS `===` between two property values (`undefined` when absent); distinct
arrays/objects compare by reference, hence unequal here. -/
def jsStrictEqF (x s : Json) (k : String) : Bool :=
  match getF x k, getF s k with
  | some Json.null, some Json.null => true
  | some (Json.bool a), some (Json.bool b) => a = b
  | some (Json.num a), some (Json.num b) => a = b
  | some (Json.str a), some (Json.str b) => a = b
  | none, none => true
  | _, _ => false

/-- The comparison `x.id === s.id` used by `upsertSession`'s `findIndex`. -/
def idEq (x s : Json) : Bool := jsStrictEqF x s "id"

/-- The transform passed to `mutateStore` by `upsertSession` (line 166):
replace the session at the first index with a matching `id`, else prepend. -/
def upsertFn (s : Json) (st : StoreJ) : Json :=
  match st.sessions.findIdx? (fun x => idEq x s) with
  | some i => encodeStore ⟨st.sessions.set i s⟩
  | none => encodeStore ⟨s :: st.sessions⟩

/-- `upsertSession` (line 166). -/
def upsertSession (s : Json) (ls : LS) : StoreJ × LS :=
  mutateStore (upsertFn s) ls

/-! ## Drill state record (`App.tsx` lines 180-206) -/

/-- `"correct" | "wrong"`. -/
inductive Outcome where
  | correct : Outcome
  | wrong : Outcome
deriving DecidableEq

/-- `DrillRecord` (line 180). -/
structure DrillRecord where
  lastReviewedAt : Int
  lastOutcome : Outcome
  lastTimeSec : Option Int
deriving DecidableEq

/-- `DrillState` (line 181): a record keyed by `subject|questionNumber`. -/
abbrev DrillState : Type := List (String × DrillRecord)

/-- `Object.entries`: key/value pairs of an object, index/element pairs of an
array (both have `typeof === "object"`), nothing for primitives. -/
def entriesOf : Json → Option (List (String × Json))
  | Json.obj fs => some fs
  | Json.arr xs => some ((List.range xs.length).zip xs |>.map (fun p => (toString p.1, p.2)))
  | _ => none

/-- Normalization of one stored entry inside `loadDrillState` (lines 189-194). -/
def normDrillRecord (v : Json) : DrillRecord :=
  { lastReviewedAt := match getF v "lastReviewedAt" with | some (Json.num n) => n | _ => 0,
    lastOutcome := match getF v "lastOutcome" with
      | some (Json.str t) => if t = "correct" then Outcome.correct else Outcome.wrong
      | _ => Outcome.wrong,
    lastTimeSec := match getF v "lastTimeSec" with | some (Json.num n) => some n | _ => none }

/-- `loadDrillState` (line 183): absent/falsy or unparsable raw values and
non-objects yield the empty record; otherwise every entry is normalized. -/
def loadDrillState (raw : Option Raw) : DrillState :=
  if rawTruthy raw then
    match raw with
    | some r =>
        (match parseRaw r with
         | some parsed =>
             (match entriesOf parsed with
              | some es => es.map (fun kv => (kv.1, normDrillRecord kv.2))
              | none => [])
         | none => [])
    | none => []
  else []

/-! ## Typed data model (`App.tsx` lines 14-78), used by the drill scheduler
and the per-answer UI helpers, and to describe well-formed sessions. -/

/-- Option letters `A`-`H` (line 14). -/
inductive Letter where
  | A | B | C | D | E | F | G | H
deriving DecidableEq

/-- `Subject` (line 30). -/
inductive Subject where
  | math1 | math2 | physics
deriving DecidableEq

/-- `${subject}` in a template literal. -/
def subjectStr : Subject → String
  | Subject.math1 => "math1"
  | Subject.math2 => "math2"
  | Subject.physics => "physics"

/-- `Answer` (line 39). -/
structure Answer where
  choice : Option Letter
  other : String
  correctChoice : Option Letter
  explanation : String
  pinned : Bool
  screenshot : Option String
deriving DecidableEq

/-- `SessionMeta` (line 59); optional fields are `Option`, `score` is the
`{correct, total}` pair. -/
structure SessionT where
  id : String
  name : String
  subject : Subject
  startNum : Int
  endNum : Int
  startedAt : Int
  endedAt : Option Int
  minutes : Int
  perQuestionSec : List Int
  answers : List Answer
  correctFlags : Option (List (Option Bool))
  guessedFlags : Option (List Bool)
  mistakeTags : Option (List String)
  score : Option (Int × Int)
  notes : Option String
deriving DecidableEq

/-- JS `String.prototype.trim`: strip leading and trailing whitespace
(executable form; `String.trim` itself is defined by well-founded recursion
and does not reduce). -/
def jsTrim (s : String) : String :=
  ⟨((s.data.dropWhile Char.isWhitespace).reverse.dropWhile Char.isWhitespace).reverse⟩

/-- JS truthiness of a `string | null` field (`!!x`): `null` and `""` are falsy. -/
def strOptTruthy : Option String → Bool
  | none => false
  | some s => s ≠ ""

/-- Serialization of an option letter (`Letter | null`). -/
def encodeLetterOpt : Option Letter → Json
  | none => Json.null
  | some Letter.A => Json.str "A"
  | some Letter.B => Json.str "B"
  | some Letter.C => Json.str "C"
  | some Letter.D => Json.str "D"
  | some Letter.E => Json.str "E"
  | some Letter.F => Json.str "F"
  | some Letter.G => Json.str "G"
  | some Letter.H => Json.str "H"

/-- Serialization of a `string | null` field. -/
def encodeStrOpt : Option String → Json
  | none => Json.null
  | some s => Json.str s

/-- Serialization of a `number | undefined`/`null` field. -/
def encodeIntOpt : Option Int → Json
  | none => Json.null
  | some n => Json.num n

/-- JSON form of a fully-populated `Answer`, field order as in
`normalizeAnswer`. -/
def encodeAnswer (a : Answer) : Json :=
  Json.obj
    [ ("choice", encodeLetterOpt a.choice),
      ("other", Json.str a.other),
      ("correctChoice", encodeLetterOpt a.correctChoice),
      ("explanation", Json.str a.explanation),
      ("pinned", Json.bool a.pinned),
      ("screenshot", encodeStrOpt a.screenshot) ]

/-- JSON form of a well-formed `SessionMeta`.  JS deep equality and every
consumer are insensitive to key order and to `null` versus absent optional
fields, so a canonical order (with `subject` and `version` first, the order
`addMissingFields` produces) and `null` for `none` are used. -/
def encodeSessionT (s : SessionT) : Json :=
  Json.obj
    [ ("subject", Json.str (subjectStr s.subject)),
      ("version", Json.num 1),
      ("id", Json.str s.id),
      ("name", Json.str s.name),
      ("startNum", Json.num s.startNum),
      ("endNum", Json.num s.endNum),
      ("startedAt", Json.num s.startedAt),
      ("endedAt", encodeIntOpt s.endedAt),
      ("minutes", Json.num s.minutes),
      ("perQuestionSec", Json.arr (s.perQuestionSec.map Json.num)),
      ("answers", Json.arr (s.answers.map encodeAnswer)),
      ("correctFlags", Json.arr ((s.correctFlags.getD []).map
        (fun f => match f with | none => Json.null | some b => Json.bool b))),
      ("guessedFlags", Json.arr ((s.guessedFlags.getD []).map Json.bool)),
      ("mistakeTags", Json.arr ((s.mistakeTags.getD []).map Json.str)),
      ("score", match s.score with
        | none => Json.null
        | some p => Json.obj [("correct", Json.num p.1), ("total", Json.num p.2)]),
      ("notes", encodeStrOpt s.notes) ]

/-! ## Drill pool (`App.tsx` lines 281-308) -/

/-- `DrillItem` (line 253). -/
structure DrillItem where
  key : String
  subject : Subject
  question : Int
  correctChoice : Option Letter
  explanation : String
  screenshot : Option String
  other : String
  lastWrongAt : Int
  historicSec : Int
deriving DecidableEq

/-- The candidate built at index `i` of session `s` (lines 289-302); on typed
sessions `normalizeAnswer` and the `??` fallbacks on total fields are
identities. -/
def mkDrillItem (s : SessionT) (i : Nat) : DrillItem :=
  let qn := s.startNum + i
  let ans := (s.answers[i]?).getD
    ⟨none, "", none, "", false, none⟩
  { key := subjectStr s.subject ++ "|" ++ toString qn,
    subject := s.subject,
    question := qn,
    correctChoice := ans.correctChoice,
    explanation := jsTrim ans.explanation,
    screenshot := ans.screenshot,
    other := ans.other,
    lastWrongAt := s.endedAt.getD s.startedAt,
    historicSec := (s.perQuestionSec[i]?).getD 0 }

/-- `map.set` guarded by last-wrong-wins (lines 303-304): insert when the key
is new or the candidate's `lastWrongAt` is strictly more recent. -/
def mapInsert (m : List (String × DrillItem)) (rec : DrillItem) : List (String × DrillItem) :=
  match lookupA m rec.key with
  | none => setAssoc m rec.key rec
  | some prev =>
      if rec.lastWrongAt > prev.lastWrongAt then setAssoc m rec.key rec else m

/-- The per-session inner loop of `drillPool` (lines 285-306): for each index
with `correctFlags[i] === false`, offer the candidate to the map. -/
def drillPoolStep (m : List (String × DrillItem)) (s : SessionT) : List (String × DrillItem) :=
  (List.range s.answers.length).foldl
    (fun m i =>
      match (s.correctFlags.getD [])[i]? with
      | some (some false) => mapInsert m (mkDrillItem s i)
      | _ => m)
    m

/-- `drillPool` (line 281): scan all sessions, de-duplicate by key
(last-wrong-wins), then keep items of the requested subject with a truthy
screenshot. -/
def drillPool (sessions : List SessionT) (drillSubject : Subject) : List DrillItem :=
  let m := sessions.foldl drillPoolStep []
  (m.map Prod.snd).filter
    (fun it => it.subject = drillSubject && strOptTruthy it.screenshot)

/-! ## Drill selection weighting (`App.tsx` lines 315-339).  JS floating-point
arithmetic is modelled over the reals. -/

/-- The recency-of-wrongness boost (line 321). -/
noncomputable def recencyBoost (nowTs : Int) (it : DrillItem) : ℝ :=
  let sinceWrongH : ℝ := max 0 (((nowTs - it.lastWrongAt : Int) : ℝ) / (1000 * 60 * 60))
  1 + 2 * Real.exp (-sinceWrongH / 48)

/-- The slowness factor (lines 322-323); `lastTimeSec` from the drill record
takes precedence over the item's historic time. -/
noncomputable def slowFactor (ds : DrillState) (it : DrillItem) : ℝ :=
  let baseTime : ℝ :=
    match lookupA ds it.key with
    | some rec => (match rec.lastTimeSec with
        | some t => (t : ℝ)
        | none => (it.historicSec : ℝ))
    | none => (it.historicSec : ℝ)
  1 + 1.5 * min 1 (baseTime / 120)

/-- The review-staleness factor (lines 324-328): only applied when the item has
a drill record with a truthy (nonzero) `lastReviewedAt`. -/
noncomputable def reviewFactor (ds : DrillState) (nowTs : Int) (it : DrillItem) : ℝ :=
  match lookupA ds it.key with
  | some rec =>
      if rec.lastReviewedAt ≠ 0 then
        let sinceReviewH : ℝ := ((nowTs - rec.lastReviewedAt : Int) : ℝ) / (1000 * 60 * 60)
        if sinceReviewH < 2 then 0.2
        else if sinceReviewH < 8 then 0.6
        else if sinceReviewH < 24 then 0.8
        else 1
      else 1
  | none => 1

/-- The outcome factor (line 329): `0.7` only when the last recorded outcome
is `"correct"`. -/
def outcomeFactor (ds : DrillState) (it : DrillItem) : ℝ :=
  match lookupA ds it.key with
  | some rec => if rec.lastOutcome = Outcome.correct then 0.7 else 1.3
  | none => 1.3

/-- The weight of one candidate (lines 318-331), floored at `0.05`. -/
noncomputable def drillWeight (ds : DrillState) (nowTs : Int) (it : DrillItem) : ℝ :=
  max 0.05 (recencyBoost nowTs it * slowFactor ds it * reviewFactor ds nowTs it * outcomeFactor ds it)

/-- The linear scan of `pickNextDrillItem` (lines 334-337): subtract each
weight from the remainder and stop at the first non-positive remainder. -/
noncomputable def pickLoop {α : Type} : List (α × ℝ) → ℝ → Option α
  | [], _ => none
  | (x, w) :: rest, r => if r - w ≤ 0 then some x else pickLoop rest (r - w)

/-- `pickNextDrillItem` (line 315) with the call `Math.random()` made an
explicit argument `rand`: `r = rand * total`, linear scan, and the last
element as fallback when the scan exhausts the list. -/
noncomputable def pickNextDrillItem (pool : List DrillItem) (ds : DrillState) (nowTs : Int)
    (rand : ℝ) : Option DrillItem :=
  if pool.isEmpty then none
  else
    let weights := pool.map (drillWeight ds nowTs)
    let total := weights.foldl (· + ·) 0
    let r := rand * total
    match pickLoop (pool.zip weights) r with
    | some it => some it
    | none => pool.getLast?

/-! ## Per-answer review helpers (`App.tsx` lines 526-548) -/

/-- `setExplanation` (line 526): store the text; when the trimmed text is empty
and the screenshot is falsy, force `pinned` off. -/
def setExplanation (answers : List Answer) (idx : Nat) (text : String) : List Answer :=
  match answers[idx]? with
  | none => answers
  | some current =>
      let shouldUnpin := jsTrim text = "" && ¬ strOptTruthy current.screenshot
      answers.set idx
        { current with
          explanation := text,
          pinned := if shouldUnpin then false else current.pinned }

/-- `setScreenshot` (line 536): store the data URL; when the trimmed
explanation is empty and the new value is falsy, force `pinned` off. -/
def setScreenshot (answers : List Answer) (idx : Nat) (dataUrl : Option String) : List Answer :=
  match answers[idx]? with
  | none => answers
  | some current =>
      let next := { current with screenshot := dataUrl }
      let next := if jsTrim next.explanation = "" && ¬ strOptTruthy dataUrl then
          { next with pinned := false }
        else next
      answers.set idx next

/-- A list of sessions that `sanitize` accepts unchanged: the shape of any
store the program itself has persisted. -/
def FixedL (l : List Json) : Prop :=
  sanitize (encodeStore ⟨l⟩) = some ⟨l⟩

/-- The effect of `upsertSession`'s transform on the session list. -/
def upsertList (l : List Json) (u : Json) : List Json :=
  match l.findIdx? (fun x => idEq x u) with
  | some i => l.set i u
  | none => u :: l


/-! ## Specification-side descriptions and concrete instances used by the
claim theorems -/

/-- The candidate offered at index `i` of session `s`, when `i` is explicitly
marked wrong (`correctFlags[i] === false`). -/
def wrongFlagAt (s : SessionT) (i : Nat) : Option DrillItem :=
  match (s.correctFlags.getD [])[i]? with
  | some (some false) => some (mkDrillItem s i)
  | _ => none

/-- Every wrong-marked candidate of a session history, in scan order,
regardless of screenshot (the list the de-duplicating map of `drillPool`
actually processes). -/
def wrongCandidates (sessions : List SessionT) : List DrillItem :=
  sessions.flatMap (fun s =>
    (List.range s.answers.length).filterMap (wrongFlagAt s))

/-- Last-wrong-wins between a previously kept candidate and a newer one
(strict comparison: ties keep the earlier candidate). -/
def betterWrong (p r : DrillItem) : DrillItem :=
  if r.lastWrongAt > p.lastWrongAt then r else p

/-- One step of the de-duplication over candidates sharing a key. -/
def winnerStep (acc : Option DrillItem) (r : DrillItem) : Option DrillItem :=
  match acc with
  | none => some r
  | some p => some (betterWrong p r)

/-- The candidate `drillPool`'s map retains for key `k`. -/
def winnerFor (cands : List DrillItem) (k : String) : Option DrillItem :=
  (cands.filter (fun c => c.key = k)).foldl winnerStep none

/-- A session record in the exact shape `addMissingFields` produces. -/
def sessFixJ : Json :=
  Json.obj
    [ ("subject", Json.str "math1"), ("version", Json.num 1), ("id", Json.str "a"),
      ("answers", Json.arr []), ("perQuestionSec", Json.arr []) ]

/-- Persisted state with an empty string in the primary slot (JS-falsy, and
unparsable by `JSON.parse`) and a valid one-session store in the backup slot. -/
def lsEmptyPrimary : LS :=
  ⟨some Raw.emptyStr, some (Raw.jsonText (encodeStore ⟨[sessFixJ]⟩))⟩

/-- A minimally-valid session whose `subject` holds a value outside the
`Subject` enumeration. -/
def badSubjectSession : Json :=
  Json.obj
    [ ("id", Json.str "a"), ("answers", Json.arr []),
      ("perQuestionSec", Json.arr []), ("subject", Json.str "bogus") ]

/-- A wrong answer carrying a screenshot. -/
def answerWithShot : Answer := ⟨none, "", none, "", false, some "img"⟩

/-- A wrong answer without a screenshot. -/
def answerNoShot : Answer := ⟨none, "", none, "", false, none⟩

/-- Session ended at time 100, question 5 marked wrong, with a screenshot. -/
def sessionOldWrongShot : SessionT :=
  ⟨"s1", "", Subject.math1, 5, 5, 0, some 100, 10, [30], [answerWithShot],
    some [some false], none, none, none, none⟩

/-- Session ended at time 200, question 5 marked wrong, without a screenshot. -/
def sessionNewWrongNoShot : SessionT :=
  ⟨"s2", "", Subject.math1, 5, 5, 0, some 200, 10, [25], [answerNoShot],
    some [some false], none, none, none, none⟩

/-- A small well-formed session used to instantiate the store theorems. -/
def sessT0 : SessionT :=
  ⟨"w0", "n", Subject.math1, 1, 1, 0, none, 5, [0], [answerNoShot],
    some [none], some [false], some ["None"], none, some ""⟩

/-- A concrete drill item. -/
def itemEx : DrillItem :=
  ⟨"math1|5", Subject.math1, 5, none, "", some "img", "", 100, 30⟩

/-! ## Helper lemmas about the storage pipeline -/

theorem getNN_choice_encodeAnswer (a : Answer) :
    getNN (encodeAnswer a) "choice" Json.null = encodeLetterOpt a.choice := by
  cases h : a.choice with
  | none => simp [encodeAnswer, getNN, getF, lookupA, h, encodeLetterOpt]
  | some l => cases l <;> simp [encodeAnswer, getNN, getF, lookupA, h, encodeLetterOpt]

theorem getNN_correctChoice_encodeAnswer (a : Answer) :
    getNN (encodeAnswer a) "correctChoice" Json.null = encodeLetterOpt a.correctChoice := by
  cases h : a.correctChoice with
  | none => simp [encodeAnswer, getNN, getF, lookupA, h, encodeLetterOpt]
  | some l => cases l <;> simp [encodeAnswer, getNN, getF, lookupA, h, encodeLetterOpt]

theorem getNN_screenshot_encodeAnswer (a : Answer) :
    getNN (encodeAnswer a) "screenshot" Json.null = encodeStrOpt a.screenshot := by
  cases h : a.screenshot <;> simp [encodeAnswer, getNN, getF, lookupA, h, encodeStrOpt]

/-- A fully-populated `Answer` is a fixed point of `normalizeAnswer`. -/
theorem normalizeAnswerJ_encodeAnswer (a : Answer) :
    normalizeAnswerJ (encodeAnswer a) = encodeAnswer a := by
  have hc := getNN_choice_encodeAnswer a
  have hcc := getNN_correctChoice_encodeAnswer a
  have hs := getNN_screenshot_encodeAnswer a
  simp only [normalizeAnswerJ] at *
  rw [hc, hcc, hs]
  simp [encodeAnswer, getNN, getF, lookupA]

theorem isSession_encodeSessionT (s : SessionT) : isSession (encodeSessionT s) = true := rfl

theorem getF_encodeSessionT_id (s : SessionT) :
    getF (encodeSessionT s) "id" = some (Json.str s.id) := rfl

/-- `x.id === s.id` on two encoded sessions is string equality of the ids. -/
theorem idEq_encodeSessionT (x y : SessionT) :
    idEq (encodeSessionT x) (encodeSessionT y) = decide (x.id = y.id) := rfl

set_option maxRecDepth 40000 in
set_option maxHeartbeats 1000000 in
/-- A well-formed encoded session is a fixed point of `addMissingFields`. -/
theorem addMissingFields_encodeSessionT (s : SessionT) :
    addMissingFields (encodeSessionT s) = encodeSessionT s := by
  have hans : (s.answers.map encodeAnswer).map normalizeAnswerJ = s.answers.map encodeAnswer := by
    rw [List.map_map]
    exact List.map_congr_left (fun a _ => normalizeAnswerJ_encodeAnswer a)
  have h1 : addMissingFields (encodeSessionT s) =
      Json.obj (setAssoc
        ((fieldsOf (encodeSessionT s)).foldl (fun acc kv => setAssoc acc kv.1 kv.2)
          [("subject", Json.str (subjectStr s.subject)), ("version", Json.num 1)])
        "answers" (Json.arr ((s.answers.map encodeAnswer).map normalizeAnswerJ))) := by
    cases h : s.subject <;> rfl
  rw [h1, hans]
  rfl

theorem sanitize_encodeStore (l : List Json) :
    sanitize (encodeStore ⟨l⟩) = some ⟨(l.filter isSession).map addMissingFields⟩ := rfl

theorem filter_map_eq_self_iff (p : Json → Bool) (f : Json → Json) :
    ∀ l : List Json, ((l.filter p).map f = l ↔ ∀ x ∈ l, p x = true ∧ f x = x) := by
  intro l
  induction l with
  | nil => simp
  | cons a t ih =>
      by_cases hp : p a = true
      · constructor
        · intro h
          rw [List.filter_cons_of_pos hp, List.map_cons] at h
          obtain ⟨h1, h2⟩ := List.cons.injEq _ _ _ _ ▸ h
          intro x hx
          rcases List.mem_cons.mp hx with hx | hx
          · exact hx ▸ ⟨hp, h1⟩
          · exact (ih.mp h2) x hx
        · intro h
          rw [List.filter_cons_of_pos hp, List.map_cons, (h a (by simp)).2]
          rw [ih.mpr (fun x hx => h x (by simp [hx]))]
      · constructor
        · intro h
          exfalso
          rw [List.filter_cons_of_neg (by simp [hp])] at h
          have hlen := congrArg List.length h
          rw [List.length_map] at hlen
          have := List.length_filter_le p t
          simp at hlen
          omega
        · intro h
          exact absurd (h a (by simp)).1 hp

theorem fixedL_iff (l : List Json) :
    FixedL l ↔ ∀ x ∈ l, isSession x = true ∧ addMissingFields x = x := by
  unfold FixedL
  rw [sanitize_encodeStore]
  constructor
  · intro h
    exact (filter_map_eq_self_iff isSession addMissingFields l).mp
      (congrArg StoreJ.sessions (Option.some.injEq _ _ ▸ h))
  · intro h
    exact congrArg (fun x => some (StoreJ.mk x))
      ((filter_map_eq_self_iff isSession addMissingFields l).mpr h)

/-- Loading a state whose primary slot holds a persisted fixed store is pure:
it returns that store and leaves both slots untouched. -/
theorem loadStore_fixed (l : List Json) (b : Option Raw) (h : FixedL l) :
    loadStore ⟨some (Raw.jsonText (encodeStore ⟨l⟩)), b⟩
      = (⟨l⟩, ⟨some (Raw.jsonText (encodeStore ⟨l⟩)), b⟩) := by
  unfold loadStore
  simp only [rawTruthy, parseRaw, if_true]
  rw [h]

theorem upsertFn_eq (u : Json) (st : StoreJ) :
    upsertFn u st = encodeStore ⟨upsertList st.sessions u⟩ := by
  unfold upsertFn upsertList
  cases h : st.sessions.findIdx? (fun x => idEq x u) <;> simp [h]

theorem FixedL_upsertList {l : List Json} {u : Json}
    (hu1 : isSession u = true) (hu2 : addMissingFields u = u) (h : FixedL l) :
    FixedL (upsertList l u) := by
  rw [fixedL_iff] at h ⊢
  intro x hx
  unfold upsertList at hx
  cases hf : l.findIdx? (fun y => idEq y u) with
  | some i =>
      rw [hf] at hx
      rcases List.mem_or_eq_of_mem_set hx with hx | hx
      · exact h x hx
      · exact hx ▸ ⟨hu1, hu2⟩
  | none =>
      rw [hf] at hx
      rcases List.mem_cons.mp hx with hx | hx
      · exact hx ▸ ⟨hu1, hu2⟩
      · exact h x hx

/-- Upserting a well-formed session into a state holding a fixed store:
the updated list is persisted to the primary slot and the previous primary
raw value is copied to the backup slot. -/
theorem upsertSession_fixed (u : Json) (l : List Json) (b : Option Raw)
    (hu1 : isSession u = true) (hu2 : addMissingFields u = u) (h : FixedL l) :
    upsertSession u ⟨some (Raw.jsonText (encodeStore ⟨l⟩)), b⟩
      = (⟨upsertList l u⟩,
         ⟨some (Raw.jsonText (encodeStore ⟨upsertList l u⟩)),
          some (Raw.jsonText (encodeStore ⟨l⟩))⟩) := by
  have hfix : sanitize (encodeStore ⟨upsertList l u⟩) = some ⟨upsertList l u⟩ :=
    FixedL_upsertList hu1 hu2 h
  unfold upsertSession mutateStore
  rw [loadStore_fixed l b h]
  simp only [upsertFn_eq]
  rw [hfix]
  simp [rawTruthy]

/-! ## `findIdx?` characterization helpers -/

theorem findIdx?_some_spec {α : Type} (p : α → Bool) :
    ∀ (l : List α) (i : Nat), l.findIdx? p = some i →
      (∃ x, l[i]? = some x ∧ p x = true) ∧
        (∀ j, j < i → ∀ x, l[j]? = some x → p x = false) := by
  intro l
  induction l with
  | nil => intro i h; simp [List.findIdx?] at h
  | cons a t ih =>
      intro i h
      rw [List.findIdx?_cons] at h
      by_cases hp : p a = true
      · rw [if_pos hp] at h
        obtain rfl : (0 : Nat) = i := Option.some.injEq _ _ ▸ h
        exact ⟨⟨a, by simp, hp⟩, fun j hj => absurd hj (by omega)⟩
      · rw [if_neg hp, List.findIdx?_succ] at h
        obtain ⟨i', hi', rfl⟩ := Option.map_eq_some'.mp h
        obtain ⟨⟨x, hx, hpx⟩, hbefore⟩ := ih i' hi'
        refine ⟨⟨x, by simpa using hx, hpx⟩, ?_⟩
        intro j hj y hy
        cases j with
        | zero =>
            obtain rfl : a = y := by simpa using hy
            simpa using hp
        | succ k => exact hbefore k (by omega) y (by simpa using hy)

theorem findIdx?_eq_some_intro {α : Type} (p : α → Bool) :
    ∀ (l : List α) (i : Nat),
      (∃ x, l[i]? = some x ∧ p x = true) →
      (∀ j, j < i → ∀ x, l[j]? = some x → p x = false) →
      l.findIdx? p = some i := by
  intro l
  induction l with
  | nil => intro i h _; simp at h
  | cons a t ih =>
      intro i hat hbefore
      rw [List.findIdx?_cons]
      cases i with
      | zero =>
          obtain ⟨x, hx, hpx⟩ := hat
          obtain rfl : a = x := by simpa using hx
          rw [if_pos hpx]
      | succ k =>
          have hpa : p a = false := hbefore 0 (by omega) a (by simp)
          rw [if_neg (by simp [hpa]), List.findIdx?_succ]
          rw [ih k (by simpa using hat)
            (fun j hj x hx => hbefore (j + 1) (by omega) x (by simpa using hx))]
          rfl

theorem countP_set_preserve {α : Type} (p : α → Bool) :
    ∀ (l : List α) (i : Nat) (u : α), p u = true →
      (∀ x, l[i]? = some x → p x = true) →
      (l.set i u).countP p = l.countP p := by
  intro l
  induction l with
  | nil => intro i u _ _; rfl
  | cons a t ih =>
      intro i u hu hx
      cases i with
      | zero =>
          have hpa : p a = true := hx a (by simp)
          simp [List.countP_cons, hpa, hu]
      | succ k =>
          have := ih k u hu (fun x h => hx x (by simpa using h))
          simp [List.countP_cons, this]

/-! ## Claim C1: corruption recovery -/

/-- C1, counterexample: the primary slot can hold data that `JSON.parse`
rejects — the empty string, which JS treats as falsy — while the backup holds
a valid one-session store; `load()` then returns the empty store and
reinitializes both slots, instead of returning the backup's store and
repairing the primary to match it. -/
theorem loadStore_emptyPrimary_ignores_backup :
    parseRaw Raw.emptyStr = none ∧
    sanitize (encodeStore ⟨[sessFixJ]⟩) = some ⟨[sessFixJ]⟩ ∧
    lsEmptyPrimary.primary = some Raw.emptyStr ∧
    lsEmptyPrimary.backup = some (Raw.jsonText (encodeStore ⟨[sessFixJ]⟩)) ∧
    (loadStore lsEmptyPrimary).1.sessions = [] ∧
    (loadStore lsEmptyPrimary).2.primary = some (Raw.jsonText (encodeStore ⟨[]⟩)) ∧
    (loadStore lsEmptyPrimary).2.backup = some (Raw.jsonText (encodeStore ⟨[]⟩)) ∧
    [sessFixJ] ≠ ([] : List Json) :=
  ⟨rfl, rfl, rfl, rfl, rfl, rfl, rfl, by simp⟩

/-- C1, amended (the counterexample forces the primary's raw data to be
non-empty, since the code's `if (!raw)` check routes the JS-falsy empty
string to the fresh-initialization path): for every persisted state whose
primary slot holds a NON-EMPTY raw value that fails to parse or fails shape
validation while the backup slot parses and validates, `load()` returns the
backup's validated Store and writes that Store into the primary slot. -/
theorem loadStore_recovers_backup (ls : LS) (praw : Raw) (bj : Json) (cleanB : StoreJ)
    (hp : ls.primary = some praw) (hne : praw ≠ Raw.emptyStr)
    (hbad : parseRaw praw = none ∨ ∃ p, parseRaw praw = some p ∧ sanitize p = none)
    (hb : ls.backup = some (Raw.jsonText bj))
    (hsan : sanitize bj = some cleanB) :
    loadStore ls = (cleanB, { ls with primary := some (Raw.jsonText (encodeStore cleanB)) }) := by
  obtain ⟨pr, bk⟩ := ls
  dsimp only at hp hb
  subst hp
  subst hb
  have hbk : loadBackup ⟨some praw, some (Raw.jsonText bj)⟩
      = (cleanB, ⟨some (Raw.jsonText (encodeStore cleanB)), some (Raw.jsonText bj)⟩) := by
    unfold loadBackup
    simp only [rawTruthy, parseRaw, hsan, if_true]
  cases praw with
  | emptyStr => exact absurd rfl hne
  | garbage =>
      unfold loadStore
      simpa only [rawTruthy, parseRaw, if_true] using hbk
  | jsonText p =>
      rcases hbad with hbad | ⟨q, hq, hsanq⟩
      · exact absurd hbad (by simp [parseRaw])
      · obtain rfl : p = q := by simpa [parseRaw] using hq
        unfold loadStore
        simpa only [rawTruthy, parseRaw, hsanq, if_true] using hbk

/-- Witness for C1's amended theorem: unparsable garbage in the primary,
a valid one-session store in the backup. -/
theorem loadStore_recovers_backup_witness :
    loadStore ⟨some Raw.garbage, some (Raw.jsonText (encodeStore ⟨[sessFixJ]⟩))⟩
      = (⟨[sessFixJ]⟩,
         ⟨some (Raw.jsonText (encodeStore ⟨[sessFixJ]⟩)),
          some (Raw.jsonText (encodeStore ⟨[sessFixJ]⟩))⟩) :=
  loadStore_recovers_backup _ _ _ _ rfl
    (fun h => Raw.noConfusion h) (Or.inl rfl) rfl rfl

/-! ## Claim C2: invalid mutation rejection -/

/-- C2: starting from a valid persisted Store, a `mutate` transform whose
output fails shape validation writes nothing to either slot and returns the
pre-transform Store; a subsequent `load()` still returns it. -/
theorem mutateStore_rejects_invalid (l : List Json) (b : Option Raw) (fn : StoreJ → Json)
    (hfix : FixedL l) (hbad : sanitize (fn ⟨l⟩) = none) :
    mutateStore fn ⟨some (Raw.jsonText (encodeStore ⟨l⟩)), b⟩
        = (⟨l⟩, ⟨some (Raw.jsonText (encodeStore ⟨l⟩)), b⟩) ∧
      (loadStore (mutateStore fn ⟨some (Raw.jsonText (encodeStore ⟨l⟩)), b⟩).2).1 = ⟨l⟩ := by
  have h1 : mutateStore fn ⟨some (Raw.jsonText (encodeStore ⟨l⟩)), b⟩
      = (⟨l⟩, ⟨some (Raw.jsonText (encodeStore ⟨l⟩)), b⟩) := by
    unfold mutateStore
    rw [loadStore_fixed l b hfix]
    simp only [hbad]
  refine ⟨h1, ?_⟩
  rw [h1]
  rw [loadStore_fixed l b hfix]

/-- Witness for C2: a transform replacing `sessions` with the number `42`
is rejected; the one-session store stays persisted. -/
theorem mutateStore_rejects_invalid_witness :
    mutateStore (fun _ => Json.obj [("sessions", Json.num 42)])
        ⟨some (Raw.jsonText (encodeStore ⟨[sessFixJ]⟩)), none⟩
      = (⟨[sessFixJ]⟩, ⟨some (Raw.jsonText (encodeStore ⟨[sessFixJ]⟩)), none⟩) :=
  (mutateStore_rejects_invalid [sessFixJ] none
    (fun _ => Json.obj [("sessions", Json.num 42)]) rfl rfl).1

/-! ## Claim C3: upsert/load round trip -/

/-- C3: for every well-formed session `s` and every valid persisted store,
`upsert(s)` followed by `load()` yields a Store containing a session
deep-equal to `s` — here literally the serialized form of `s`, since
normalization of a fully-populated session is the identity. -/
theorem upsert_load_roundtrip (s : SessionT) (l : List Json) (b : Option Raw)
    (hfix : FixedL l) :
    encodeSessionT s ∈
      (loadStore (upsertSession (encodeSessionT s)
        ⟨some (Raw.jsonText (encodeStore ⟨l⟩)), b⟩).2).1.sessions := by
  have hu1 := isSession_encodeSessionT s
  have hu2 := addMissingFields_encodeSessionT s
  rw [upsertSession_fixed _ l b hu1 hu2 hfix]
  rw [loadStore_fixed (upsertList l (encodeSessionT s)) _ (FixedL_upsertList hu1 hu2 hfix)]
  unfold upsertList
  cases hf : l.findIdx? (fun x => idEq x (encodeSessionT s)) with
  | some i =>
      obtain ⟨⟨x, hx, _⟩, _⟩ := findIdx?_some_spec _ l i hf
      have hi : i < l.length := by
        by_contra hcon
        rw [List.getElem?_eq_none (by omega)] at hx
        exact Option.noConfusion hx
      exact List.getElem?_mem (List.getElem?_set_self hi)
  | none => exact List.mem_cons_self _ _

/-- Witness for C3: upserting a concrete session into the empty store. -/
theorem upsert_load_roundtrip_witness :
    encodeSessionT sessT0 ∈
      (loadStore (upsertSession (encodeSessionT sessT0)
        ⟨some (Raw.jsonText (encodeStore ⟨[]⟩)), none⟩).2).1.sessions :=
  upsert_load_roundtrip sessT0 [] none rfl


/-! ## Claim C4: upsert replace-in-place / prepend / idempotence / ordering -/

theorem upsertList_eq_set (l : List Json) (u : Json) (i : Nat)
    (hf : l.findIdx? (fun x => idEq x u) = some i) : upsertList l u = l.set i u := by
  unfold upsertList
  rw [hf]

theorem upsertList_eq_cons (l : List Json) (u : Json)
    (hf : l.findIdx? (fun x => idEq x u) = none) : upsertList l u = u :: l := by
  unfold upsertList
  rw [hf]

theorem idEq_self_encodeSessionT (s : SessionT) :
    idEq (encodeSessionT s) (encodeSessionT s) = true := by
  rw [idEq_encodeSessionT]
  simp

theorem upsertSession_fixed_sessions (u : Json) (l : List Json) (b : Option Raw)
    (hu1 : isSession u = true) (hu2 : addMissingFields u = u) (hfix : FixedL l) :
    (upsertSession u ⟨some (Raw.jsonText (encodeStore ⟨l⟩)), b⟩).1.sessions
      = upsertList l u := by
  rw [upsertSession_fixed u l b hu1 hu2 hfix]

theorem upsertSession_fresh (u : Json) (l : List Json) (b : Option Raw)
    (hu1 : isSession u = true) (hu2 : addMissingFields u = u) (hfix : FixedL l)
    (hfresh : ∀ x ∈ l, idEq x u = false) :
    upsertSession u ⟨some (Raw.jsonText (encodeStore ⟨l⟩)), b⟩
      = (⟨u :: l⟩,
         ⟨some (Raw.jsonText (encodeStore ⟨u :: l⟩)),
          some (Raw.jsonText (encodeStore ⟨l⟩))⟩) := by
  have h := upsertSession_fixed u l b hu1 hu2 hfix
  rw [upsertList_eq_cons l u (List.findIdx?_eq_none_iff.mpr hfresh)] at h
  exact h

theorem upsertList_stable (l : List Json) (u : Json) (hu : idEq u u = true) :
    upsertList (upsertList l u) u = upsertList l u := by
  cases hf : l.findIdx? (fun x => idEq x u) with
  | none =>
      rw [upsertList_eq_cons l u hf]
      have h0 : (u :: l).findIdx? (fun x => idEq x u) = some 0 := by
        rw [List.findIdx?_cons, if_pos hu]
      rw [upsertList_eq_set _ _ 0 h0]
      rfl
  | some i =>
      obtain ⟨⟨x, hx, hpx⟩, hbefore⟩ := findIdx?_some_spec _ l i hf
      have hi : i < l.length := by
        by_contra hcon
        rw [List.getElem?_eq_none (by omega)] at hx
        exact Option.noConfusion hx
      have hf2 : (l.set i u).findIdx? (fun x => idEq x u) = some i := by
        apply findIdx?_eq_some_intro
        · exact ⟨u, List.getElem?_set_self hi, hu⟩
        · intro j hj y hy
          rw [List.getElem?_set_ne (by omega)] at hy
          exact hbefore j hj y hy
      rw [upsertList_eq_set l u i hf, upsertList_eq_set _ _ i hf2, List.set_set]

set_option maxHeartbeats 1000000 in
/-- C4: upserting a session replaces the first session with a matching id in
place (`List.set`, so position, collection length and all other sessions are
unchanged) and otherwise prepends it; a second identical upsert changes
nothing, and when the store held at most one session with that id, exactly
one session with that id remains; upserting three fresh sessions `A`, `B`,
`C` yields them most-recent-first on top of the prior sessions, and a
subsequent update of `A` (same id) rewrites it in place without
reordering. -/
theorem upsertSession_spec (l : List Json) (b : Option Raw) (s : SessionT)
    (hfix : FixedL l) :
    (∀ i, l.findIdx? (fun x => idEq x (encodeSessionT s)) = some i →
        (upsertSession (encodeSessionT s)
          ⟨some (Raw.jsonText (encodeStore ⟨l⟩)), b⟩).1.sessions
          = l.set i (encodeSessionT s)) ∧
    (l.findIdx? (fun x => idEq x (encodeSessionT s)) = none →
        (upsertSession (encodeSessionT s)
          ⟨some (Raw.jsonText (encodeStore ⟨l⟩)), b⟩).1.sessions
          = encodeSessionT s :: l) ∧
    ((upsertSession (encodeSessionT s)
        (upsertSession (encodeSessionT s)
          ⟨some (Raw.jsonText (encodeStore ⟨l⟩)), b⟩).2).1.sessions
      = (upsertSession (encodeSessionT s)
          ⟨some (Raw.jsonText (encodeStore ⟨l⟩)), b⟩).1.sessions) ∧
    (l.countP (fun x => idEq x (encodeSessionT s)) ≤ 1 →
        (upsertSession (encodeSessionT s)
          ⟨some (Raw.jsonText (encodeStore ⟨l⟩)), b⟩).1.sessions.countP
            (fun x => idEq x (encodeSessionT s)) = 1) ∧
    (∀ A B C A2 : SessionT, A2.id = A.id → A.id ≠ B.id → A.id ≠ C.id → B.id ≠ C.id →
        (∀ x ∈ l, idEq x (encodeSessionT A) = false) →
        (∀ x ∈ l, idEq x (encodeSessionT B) = false) →
        (∀ x ∈ l, idEq x (encodeSessionT C) = false) →
        (upsertSession (encodeSessionT C)
          (upsertSession (encodeSessionT B)
            (upsertSession (encodeSessionT A)
              ⟨some (Raw.jsonText (encodeStore ⟨l⟩)), b⟩).2).2).1.sessions
          = encodeSessionT C :: encodeSessionT B :: encodeSessionT A :: l ∧
        (upsertSession (encodeSessionT A2)
          (upsertSession (encodeSessionT C)
            (upsertSession (encodeSessionT B)
              (upsertSession (encodeSessionT A)
                ⟨some (Raw.jsonText (encodeStore ⟨l⟩)), b⟩).2).2).2).1.sessions
          = encodeSessionT C :: encodeSessionT B :: encodeSessionT A2 :: l) := by
  have hu1 := isSession_encodeSessionT s
  have hu2 := addMissingFields_encodeSessionT s
  have hself := idEq_self_encodeSessionT s
  refine ⟨?_, ?_, ?_, ?_, ?_⟩
  · intro i hf
    rw [upsertSession_fixed_sessions _ l b hu1 hu2 hfix, upsertList_eq_set l _ i hf]
  · intro hf
    rw [upsertSession_fixed_sessions _ l b hu1 hu2 hfix, upsertList_eq_cons l _ hf]
  · rw [upsertSession_fixed _ l b hu1 hu2 hfix,
      upsertSession_fixed_sessions _ (upsertList l (encodeSessionT s)) _ hu1 hu2
        (FixedL_upsertList hu1 hu2 hfix)]
    exact upsertList_stable l _ hself
  · intro hle
    rw [upsertSession_fixed_sessions _ l b hu1 hu2 hfix]
    cases hf : l.findIdx? (fun x => idEq x (encodeSessionT s)) with
    | none =>
        rw [upsertList_eq_cons l _ hf]
        have hz : l.countP (fun x => idEq x (encodeSessionT s)) = 0 :=
          List.countP_eq_zero.mpr
            (fun a ha => by simp [List.findIdx?_eq_none_iff.mp hf a ha])
        simp [List.countP_cons, hz, hself]
    | some i =>
        rw [upsertList_eq_set l _ i hf]
        obtain ⟨⟨x, hx, hpx⟩, _⟩ := findIdx?_some_spec _ l i hf
        have hone : l.countP (fun y => idEq y (encodeSessionT s)) = 1 := by
          have : 0 < l.countP (fun y => idEq y (encodeSessionT s)) :=
            List.countP_pos_iff.mpr ⟨x, List.getElem?_mem hx, hpx⟩
          omega
        rw [countP_set_preserve (fun y => idEq y (encodeSessionT s)) l i (encodeSessionT s)
          hself
          (fun y hy => by
            rw [hx, Option.some_inj] at hy
            exact hy ▸ hpx)]
        exact hone
  · intro A B C A2 hA2 hAB hAC hBC hfA hfB hfC
    have hA1 := isSession_encodeSessionT A
    have hA2' := addMissingFields_encodeSessionT A
    have hB1 := isSession_encodeSessionT B
    have hB2 := addMissingFields_encodeSessionT B
    have hC1 := isSession_encodeSessionT C
    have hC2 := addMissingFields_encodeSessionT C
    have hA21 := isSession_encodeSessionT A2
    have hA22 := addMissingFields_encodeSessionT A2
    have eAB : idEq (encodeSessionT A) (encodeSessionT B) = false := by
      rw [idEq_encodeSessionT]; simp [hAB]
    have eAC : idEq (encodeSessionT A) (encodeSessionT C) = false := by
      rw [idEq_encodeSessionT]; simp [hAC]
    have eBC : idEq (encodeSessionT B) (encodeSessionT C) = false := by
      rw [idEq_encodeSessionT]; simp [hBC]
    have eCA2 : idEq (encodeSessionT C) (encodeSessionT A2) = false := by
      rw [idEq_encodeSessionT]
      simp only [hA2, decide_eq_false_iff_not]
      exact fun h => hAC h.symm
    have eBA2 : idEq (encodeSessionT B) (encodeSessionT A2) = false := by
      rw [idEq_encodeSessionT]
      simp only [hA2, decide_eq_false_iff_not]
      exact fun h => hAB h.symm
    have eAA2 : idEq (encodeSessionT A) (encodeSessionT A2) = true := by
      rw [idEq_encodeSessionT]; simp [hA2]
    have s1 := upsertSession_fresh (encodeSessionT A) l b hA1 hA2' hfix hfA
    rw [s1]
    have fixA : FixedL (encodeSessionT A :: l) := by
      rw [fixedL_iff] at hfix ⊢
      intro x hx
      rcases List.mem_cons.mp hx with hx | hx
      · exact hx ▸ ⟨hA1, hA2'⟩
      · exact hfix x hx
    have s2 := upsertSession_fresh (encodeSessionT B) (encodeSessionT A :: l)
      (some (Raw.jsonText (encodeStore ⟨l⟩))) hB1 hB2 fixA
      (fun x hx => by
        rcases List.mem_cons.mp hx with hx | hx
        · exact hx ▸ eAB
        · exact hfB x hx)
    rw [s2]
    have fixB : FixedL (encodeSessionT B :: encodeSessionT A :: l) := by
      rw [fixedL_iff] at fixA ⊢
      intro x hx
      rcases List.mem_cons.mp hx with hx | hx
      · exact hx ▸ ⟨hB1, hB2⟩
      · exact fixA x hx
    have s3 := upsertSession_fresh (encodeSessionT C)
      (encodeSessionT B :: encodeSessionT A :: l)
      (some (Raw.jsonText (encodeStore ⟨encodeSessionT A :: l⟩))) hC1 hC2 fixB
      (fun x hx => by
        rcases List.mem_cons.mp hx with hx | hx
        · exact hx ▸ eBC
        · rcases List.mem_cons.mp hx with hx | hx
          · exact hx ▸ eAC
          · exact hfC x hx)
    rw [s3]
    refine ⟨rfl, ?_⟩
    have fixC : FixedL (encodeSessionT C :: encodeSessionT B :: encodeSessionT A :: l) := by
      rw [fixedL_iff] at fixB ⊢
      intro x hx
      rcases List.mem_cons.mp hx with hx | hx
      · exact hx ▸ ⟨hC1, hC2⟩
      · exact fixB x hx
    have hfind : (encodeSessionT C :: encodeSessionT B :: encodeSessionT A :: l).findIdx?
        (fun x => idEq x (encodeSessionT A2)) = some 2 := by
      apply findIdx?_eq_some_intro
      · exact ⟨encodeSessionT A, by simp, eAA2⟩
      · intro j hj y hy
        interval_cases j
        · obtain rfl : encodeSessionT C = y := by simpa using hy
          exact eCA2
        · obtain rfl : encodeSessionT B = y := by simpa using hy
          exact eBA2
    rw [upsertSession_fixed_sessions _ _ _ hA21 hA22 fixC,
      upsertList_eq_set _ _ 2 hfind]
    rfl

/-- Witness for C4: upserting a fresh concrete session into the empty store
prepends it and leaves exactly one session with its id. -/
theorem upsertSession_spec_witness :
    (upsertSession (encodeSessionT sessT0)
        ⟨some (Raw.jsonText (encodeStore ⟨[]⟩)), none⟩).1.sessions
      = [encodeSessionT sessT0] ∧
    (upsertSession (encodeSessionT sessT0)
        ⟨some (Raw.jsonText (encodeStore ⟨[]⟩)), none⟩).1.sessions.countP
        (fun x => idEq x (encodeSessionT sessT0)) = 1 := by
  have h := upsertSession_spec [] none sessT0 rfl
  exact ⟨h.2.1 rfl, h.2.2.2.1 (by simp)⟩

/-! ## Claim C5: sanitize subject normalization -/

/-- C5: evaluating `sanitize` at the failing input.  A minimally-valid
session whose `subject` is the invalid string `"bogus"` is kept with its
subject UNCHANGED: the fallback computed by `addMissingFields` is overwritten
by the `...s` spread, so the invalid subject is not replaced by `"math1"` as
the claim states. -/
theorem sanitize_keeps_invalid_subject :
    isSession badSubjectSession = true ∧
    getF badSubjectSession "subject" = some (Json.str "bogus") ∧
    (sanitize (Json.obj [("sessions", Json.arr [badSubjectSession])])).map
        (fun st => st.sessions.map (fun x => getF x "subject"))
      = some [some (Json.str "bogus")] ∧
    Json.str "bogus" ≠ Json.str "math1" :=
  ⟨rfl, rfl, rfl, by simp⟩

/-! ## Claim C6: drill pool construction -/

theorem foldl_filterMap_eq {α β γ : Type} (g : α → Option β) (f : γ → β → γ) :
    ∀ (l : List α) (init : γ),
      (l.filterMap g).foldl f init
        = l.foldl (fun acc a => match g a with | some b => f acc b | none => acc) init := by
  intro l
  induction l with
  | nil => intro init; rfl
  | cons a t ih =>
      intro init
      rw [List.filterMap_cons]
      cases hg : g a with
      | none => simpa [hg] using ih init
      | some b => simpa [hg] using ih (f init b)

theorem foldl_flatMap_eq {α β γ : Type} (g : α → List β) (f : γ → β → γ) :
    ∀ (l : List α) (init : γ),
      (l.flatMap g).foldl f init = l.foldl (fun acc a => (g a).foldl f acc) init := by
  intro l
  induction l with
  | nil => intro init; rfl
  | cons a t ih =>
      intro init
      rw [List.flatMap_cons, List.foldl_append]
      simpa using ih ((g a).foldl f init)

theorem lookupA_setAssoc {β : Type} (m : List (String × β)) (k k' : String) (v : β) :
    lookupA (setAssoc m k v) k' = if k = k' then some v else lookupA m k' := by
  induction m with
  | nil => by_cases h : k = k' <;> simp [setAssoc, lookupA, h]
  | cons a t ih =>
      obtain ⟨ka, va⟩ := a
      by_cases h1 : ka = k
      · subst h1
        by_cases h2 : ka = k' <;> simp [setAssoc, lookupA, h2]
      · by_cases h2 : ka = k'
        · subst h2
          have : ¬ k = ka := fun h => h1 h.symm
          simp [setAssoc, lookupA, h1, this]
        · simp [setAssoc, lookupA, h1, h2, ih]

theorem lookupA_mapInsert (m : List (String × DrillItem)) (r : DrillItem) (k : String) :
    lookupA (mapInsert m r) k
      = if r.key = k then winnerStep (lookupA m k) r else lookupA m k := by
  unfold mapInsert
  by_cases hk : r.key = k
  · subst hk
    cases hl : lookupA m r.key with
    | none => simp [lookupA_setAssoc, winnerStep, hl]
    | some p =>
        by_cases hcmp : p.lastWrongAt < r.lastWrongAt
        · simp [hl, hcmp, lookupA_setAssoc, winnerStep, betterWrong]
        · simp [hl, hcmp, winnerStep, betterWrong, hl]
  · cases hl : lookupA m r.key with
    | none => simp [lookupA_setAssoc, hk, hl]
    | some p =>
        by_cases hcmp : p.lastWrongAt < r.lastWrongAt
        · simp [hl, hcmp, lookupA_setAssoc, hk]
        · simp [hl, hcmp, hk]

theorem lookupA_foldl_mapInsert :
    ∀ (cands : List DrillItem) (m : List (String × DrillItem)) (k : String),
      lookupA (cands.foldl (fun m r => mapInsert m r) m) k
        = (cands.filter (fun c => c.key = k)).foldl winnerStep (lookupA m k) := by
  intro cands
  induction cands with
  | nil => intro m k; rfl
  | cons r cs ih =>
      intro m k
      rw [List.foldl_cons, ih (mapInsert m r) k, List.filter_cons]
      by_cases hk : r.key = k
      · rw [if_pos (by simp [hk]), List.foldl_cons, lookupA_mapInsert, if_pos hk]
      · rw [if_neg (by simp [hk]), lookupA_mapInsert, if_neg hk]

theorem mem_setAssoc {β : Type} :
    ∀ (m : List (String × β)) (k : String) (v : β) (x : String × β),
      x ∈ setAssoc m k v → x ∈ m ∨ x = (k, v) := by
  intro m k v
  induction m with
  | nil => intro x hx; simpa [setAssoc] using hx
  | cons a t ih =>
      intro x hx
      obtain ⟨ka, va⟩ := a
      by_cases h1 : ka = k
      · simp only [setAssoc, if_pos h1] at hx
        rcases List.mem_cons.mp hx with hx | hx
        · exact Or.inr (by rw [hx, h1])
        · exact Or.inl (List.mem_cons_of_mem _ hx)
      · simp only [setAssoc, if_neg h1] at hx
        rcases List.mem_cons.mp hx with hx | hx
        · exact Or.inl (by simp [hx])
        · rcases ih x hx with hx | hx
          · exact Or.inl (List.mem_cons_of_mem _ hx)
          · exact Or.inr hx

theorem keys_nodup_setAssoc {β : Type} :
    ∀ (m : List (String × β)) (k : String) (v : β),
      (m.map Prod.fst).Nodup → ((setAssoc m k v).map Prod.fst).Nodup := by
  intro m k v
  induction m with
  | nil => intro _; simp [setAssoc]
  | cons a t ih =>
      intro hnd
      obtain ⟨ka, va⟩ := a
      rw [List.map_cons, List.nodup_cons] at hnd
      by_cases h1 : ka = k
      · simp only [setAssoc, if_pos h1, List.map_cons, List.nodup_cons]
        exact hnd
      · simp only [setAssoc, if_neg h1, List.map_cons, List.nodup_cons]
        refine ⟨?_, ih hnd.2⟩
        intro hmem
        rcases List.mem_map.mp hmem with ⟨x, hx, hfst⟩
        rcases mem_setAssoc t k v x hx with hx | hx
        · exact hnd.1 (List.mem_map.mpr ⟨x, hx, hfst⟩)
        · exact h1 (by rw [hx] at hfst; rw [← hfst])

theorem mapInsert_invariant (m : List (String × DrillItem)) (r : DrillItem)
    (hcoh : ∀ kv ∈ m, (kv.2 : DrillItem).key = kv.1)
    (hnd : (m.map Prod.fst).Nodup) :
    (∀ kv ∈ mapInsert m r, (kv.2 : DrillItem).key = kv.1) ∧
      ((mapInsert m r).map Prod.fst).Nodup := by
  unfold mapInsert
  cases hl : lookupA m r.key with
  | none =>
      refine ⟨?_, keys_nodup_setAssoc m r.key r hnd⟩
      intro kv hkv
      rcases mem_setAssoc m r.key r kv hkv with hkv | hkv
      · exact hcoh kv hkv
      · rw [hkv]
  | some p =>
      dsimp only
      by_cases hcmp : r.lastWrongAt > p.lastWrongAt
      · rw [if_pos hcmp]
        refine ⟨?_, keys_nodup_setAssoc m r.key r hnd⟩
        intro kv hkv
        rcases mem_setAssoc m r.key r kv hkv with hkv | hkv
        · exact hcoh kv hkv
        · rw [hkv]
      · rw [if_neg hcmp]
        exact ⟨hcoh, hnd⟩

theorem foldl_mapInsert_invariant :
    ∀ (cands : List DrillItem) (m : List (String × DrillItem)),
      (∀ kv ∈ m, (kv.2 : DrillItem).key = kv.1) → (m.map Prod.fst).Nodup →
      (∀ kv ∈ cands.foldl (fun m r => mapInsert m r) m, (kv.2 : DrillItem).key = kv.1) ∧
        ((cands.foldl (fun m r => mapInsert m r) m).map Prod.fst).Nodup := by
  intro cands
  induction cands with
  | nil => intro m hcoh hnd; exact ⟨hcoh, hnd⟩
  | cons r cs ih =>
      intro m hcoh hnd
      obtain ⟨h1, h2⟩ := mapInsert_invariant m r hcoh hnd
      exact ih (mapInsert m r) h1 h2

theorem lookupA_of_mem_nodup {β : Type} :
    ∀ (m : List (String × β)) (k : String) (v : β),
      (m.map Prod.fst).Nodup → (k, v) ∈ m → lookupA m k = some v := by
  intro m
  induction m with
  | nil => intro k v _ h; simp at h
  | cons a t ih =>
      intro k v hnd hmem
      obtain ⟨ka, va⟩ := a
      rw [List.map_cons, List.nodup_cons] at hnd
      rcases List.mem_cons.mp hmem with hmem | hmem
      · obtain ⟨rfl, rfl⟩ := Prod.mk.injEq _ _ _ _ ▸ hmem
        simp [lookupA]
      · have hne : ka ≠ k := by
          intro h
          subst h
          exact hnd.1 (List.mem_map.mpr ⟨(ka, v), hmem, rfl⟩)
        simp [lookupA, hne, ih k v hnd.2 hmem]

theorem mem_of_lookupA {β : Type} :
    ∀ (m : List (String × β)) (k : String) (v : β),
      lookupA m k = some v → (k, v) ∈ m := by
  intro m
  induction m with
  | nil => intro k v h; simp [lookupA] at h
  | cons a t ih =>
      intro k v h
      obtain ⟨ka, va⟩ := a
      by_cases hk : ka = k
      · subst hk
        simp only [lookupA, if_pos rfl] at h
        simp at h
        simp [h]
      · simp only [lookupA, if_neg hk] at h
        exact List.mem_cons_of_mem _ (ih k v h)

theorem foldl_step_eq (s : SessionT) :
    ∀ (idxs : List Nat) (m : List (String × DrillItem)),
      (idxs.filterMap (wrongFlagAt s)).foldl (fun m r => mapInsert m r) m
        = idxs.foldl (fun m i =>
            match (s.correctFlags.getD [])[i]? with
            | some (some false) => mapInsert m (mkDrillItem s i)
            | _ => m) m := by
  intro idxs
  induction idxs with
  | nil => intro m; rfl
  | cons i rest ih =>
      intro m
      rw [List.filterMap_cons, List.foldl_cons]
      cases hfl : (s.correctFlags.getD [])[i]? with
      | none =>
          have hg : wrongFlagAt s i = none := by unfold wrongFlagAt; rw [hfl]
          rw [hg]
          exact ih m
      | some ob =>
          cases ob with
          | none =>
              have hg : wrongFlagAt s i = none := by unfold wrongFlagAt; rw [hfl]
              rw [hg]
              exact ih m
          | some bb =>
              cases bb with
              | false =>
                  have hg : wrongFlagAt s i = some (mkDrillItem s i) := by
                    unfold wrongFlagAt; rw [hfl]
                  rw [hg, List.foldl_cons]
                  exact ih (mapInsert m (mkDrillItem s i))
              | true =>
                  have hg : wrongFlagAt s i = none := by unfold wrongFlagAt; rw [hfl]
                  rw [hg]
                  exact ih m

theorem drillPoolStep_eq (m : List (String × DrillItem)) (s : SessionT) :
    drillPoolStep m s
      = ((List.range s.answers.length).filterMap (wrongFlagAt s)).foldl
          (fun m r => mapInsert m r) m := by
  rw [foldl_step_eq]
  rfl

theorem wrongCandidates_cons (s : SessionT) (rest : List SessionT) :
    wrongCandidates (s :: rest)
      = (List.range s.answers.length).filterMap (wrongFlagAt s) ++ wrongCandidates rest := by
  unfold wrongCandidates
  rw [List.flatMap_cons]

theorem sessions_foldl_eq (sessions : List SessionT) :
    ∀ m, sessions.foldl drillPoolStep m
      = (wrongCandidates sessions).foldl (fun m r => mapInsert m r) m := by
  induction sessions with
  | nil => intro m; rfl
  | cons s rest ih =>
      intro m
      rw [List.foldl_cons, ih (drillPoolStep m s), wrongCandidates_cons,
        List.foldl_append, drillPoolStep_eq]

theorem winnerFor_eq_lookup (cands : List DrillItem) (k : String) :
    winnerFor cands k = lookupA (cands.foldl (fun m r => mapInsert m r) []) k := by
  rw [lookupA_foldl_mapInsert cands [] k]
  rfl

/-- C6, counterexample: session `s1` (ended at 100) marked question 5 wrong
WITH a screenshot, session `s2` (ended at 200) marked the same question wrong
WITHOUT one.  The de-duplicating map keeps only the most recent wrong answer
per key before the screenshot filter runs, so the pool is empty — although
some session has `correctFlags[i] === false` with a non-null screenshot at
that key, contradicting the claim's "exactly when". -/
theorem drillPool_misses_shadowed_screenshot :
    sessionOldWrongShot.subject = Subject.math1 ∧
    sessionOldWrongShot.correctFlags = some [some false] ∧
    sessionOldWrongShot.answers.map (fun a => a.screenshot) = [some "img"] ∧
    sessionNewWrongNoShot.endedAt = some 200 ∧ sessionOldWrongShot.endedAt = some 100 ∧
    drillPool [sessionOldWrongShot, sessionNewWrongNoShot] Subject.math1 = [] ∧
    drillPool [sessionOldWrongShot] Subject.math1 = [mkDrillItem sessionOldWrongShot 0] :=
  ⟨rfl, rfl, rfl, rfl, rfl, rfl, rfl⟩

/-- C6, amended: an item belongs to the drill pool exactly when it is the
last-wrong-wins winner for its key among ALL explicitly-wrong candidates of
the history (with or without screenshots; strictly-more-recent
`endedAt ?? startedAt` wins, ties keep the earlier candidate), it has a
truthy (non-null, non-empty) screenshot, and it carries the requested
subject.  The de-duplication step therefore also picks the most recent wrong
answer among candidates that may lack screenshots, not only among
screenshot-bearing ones. -/
theorem drillPool_mem_iff (sessions : List SessionT) (subj : Subject) (it : DrillItem) :
    it ∈ drillPool sessions subj ↔
      (winnerFor (wrongCandidates sessions) it.key = some it ∧
        it.subject = subj ∧ strOptTruthy it.screenshot = true) := by
  unfold drillPool
  rw [sessions_foldl_eq]
  obtain ⟨hcoh, hnd⟩ := foldl_mapInsert_invariant (wrongCandidates sessions) []
    (by intro kv h; simp at h) (by simp)
  rw [winnerFor_eq_lookup]
  constructor
  · intro hmem
    obtain ⟨hm, hpred⟩ := List.mem_filter.mp hmem
    obtain ⟨x, hkv, hsnd⟩ := List.mem_map.mp hm
    have hk : x.2.key = x.1 := hcoh x hkv
    have hxkv : (it.key, it) ∈ (wrongCandidates sessions).foldl (fun m r => mapInsert m r) [] := by
      have : x = (it.key, it) := by
        obtain ⟨k, v⟩ := x
        simp only at hsnd hk
        rw [hsnd] at hk
        rw [← hk, hsnd]
      exact this ▸ hkv
    refine ⟨lookupA_of_mem_nodup _ _ _ hnd hxkv, ?_, ?_⟩
    · have := (Bool.and_eq_true _ _).mp hpred
      simpa using this.1
    · exact ((Bool.and_eq_true _ _).mp hpred).2
  · rintro ⟨hw, hsub, hshot⟩
    have hmem : (it.key, it) ∈ (wrongCandidates sessions).foldl (fun m r => mapInsert m r) [] :=
      mem_of_lookupA _ _ _ hw
    refine List.mem_filter.mpr ⟨List.mem_map.mpr ⟨(it.key, it), hmem, rfl⟩, ?_⟩
    simp [hsub, hshot]

/-- Witness for C6's amended theorem: with only `s1` in the history, its
candidate is the winner and (having a screenshot and the right subject) is in
the pool. -/
theorem drillPool_mem_iff_witness :
    mkDrillItem sessionOldWrongShot 0 ∈ drillPool [sessionOldWrongShot] Subject.math1 :=
  (drillPool_mem_iff [sessionOldWrongShot] Subject.math1
    (mkDrillItem sessionOldWrongShot 0)).mpr ⟨rfl, rfl, rfl⟩

/-! ## Claim C7: pickNext totality and membership -/

theorem pickLoop_mem {α : Type} :
    ∀ (l : List (α × ℝ)) (r : ℝ) (x : α), pickLoop l r = some x → x ∈ l.map Prod.fst := by
  intro l
  induction l with
  | nil => intro r x h; simp [pickLoop] at h
  | cons p rest ih =>
      intro r x h
      obtain ⟨y, w⟩ := p
      unfold pickLoop at h
      by_cases hc : r - w ≤ 0
      · rw [if_pos hc, Option.some_inj] at h
        simp [h]
      · rw [if_neg hc] at h
        exact List.mem_cons_of_mem _ (ih (r - w) x h)

/-- C7: `pickNextDrillItem` returns no item exactly when the pool is empty;
on a non-empty pool anything it returns is an element of the pool (the linear
scan stops inside the list and the exhausted-remainder fallback returns the
last element); in particular a singleton pool is always selected, whatever
the drill state, clock and random draw. -/
theorem pickNextDrillItem_spec (pool : List DrillItem) (ds : DrillState) (nowTs : Int)
    (rand : ℝ) :
    (pickNextDrillItem pool ds nowTs rand = none ↔ pool = []) ∧
    (∀ it, pickNextDrillItem pool ds nowTs rand = some it → it ∈ pool) ∧
    (∀ it, pool = [it] → pickNextDrillItem pool ds nowTs rand = some it) := by
  cases pool with
  | nil =>
      refine ⟨by simp [pickNextDrillItem], ?_, ?_⟩
      · intro it h
        rw [pickNextDrillItem] at h
        simp at h
      · intro it h
        exact absurd h (by simp)
  | cons a t =>
      have hmem : ∀ it, pickNextDrillItem (a :: t) ds nowTs rand = some it → it ∈ a :: t := by
        intro it h
        rw [pickNextDrillItem] at h
        simp only [List.isEmpty_cons, Bool.false_eq_true, if_false] at h
        cases hpl : pickLoop ((a :: t).zip ((a :: t).map (drillWeight ds nowTs)))
            (rand * (((a :: t).map (drillWeight ds nowTs)).foldl (· + ·) 0)) with
        | some it2 =>
            rw [hpl, Option.some_inj] at h
            have h2 := pickLoop_mem _ _ _ hpl
            rw [List.map_fst_zip _ _ (by simp)] at h2
            exact h ▸ h2
        | none =>
            rw [hpl] at h
            dsimp only at h
            exact List.mem_of_mem_getLast? h
      have hsome : pickNextDrillItem (a :: t) ds nowTs rand ≠ none := by
        rw [pickNextDrillItem]
        simp only [List.isEmpty_cons, Bool.false_eq_true, if_false]
        cases hpl : pickLoop ((a :: t).zip ((a :: t).map (drillWeight ds nowTs)))
            (rand * (((a :: t).map (drillWeight ds nowTs)).foldl (· + ·) 0)) with
        | some it2 => simp
        | none => simp [List.getLast?_concat]
      refine ⟨?_, hmem, ?_⟩
      · constructor
        · intro h
          exact absurd h hsome
        · intro h
          exact absurd h (by simp)
      · intro it hpool
        cases hres : pickNextDrillItem (a :: t) ds nowTs rand with
        | none => exact absurd hres hsome
        | some it2 =>
            have := hmem it2 hres
            rw [hpool] at this
            obtain rfl : it2 = it := by simpa using this
            rfl

/-- Witness for C7: a singleton pool is picked with random draw `0`. -/
theorem pickNextDrillItem_spec_witness :
    pickNextDrillItem [itemEx] [] 0 0 = some itemEx :=
  (pickNextDrillItem_spec [itemEx] [] 0 0).2.2 itemEx rfl

/-! ## Claim C8: staleness suppression -/

theorem recencyBoost_bounds (nowTs : Int) (it : DrillItem) :
    1 < recencyBoost nowTs it ∧ recencyBoost nowTs it ≤ 3 := by
  unfold recencyBoost
  have h0 : (0 : ℝ) ≤ max 0 (((nowTs - it.lastWrongAt : Int) : ℝ) / (1000 * 60 * 60)) :=
    le_max_left _ _
  have hexp1 : Real.exp (-(max 0 (((nowTs - it.lastWrongAt : Int) : ℝ) / (1000 * 60 * 60))) / 48) ≤ 1 := by
    apply Real.exp_le_one_iff.mpr
    nlinarith
  have hexp0 : 0 < Real.exp (-(max 0 (((nowTs - it.lastWrongAt : Int) : ℝ) / (1000 * 60 * 60))) / 48) :=
    Real.exp_pos _
  constructor <;> nlinarith

/-- C8: with item `X` reviewed one minute ago with outcome `"correct"` and an
otherwise-identical item `Y` (same `lastWrongAt`, same non-negative
`historicSec`) never reviewed, `X` receives staleness factor `0.2` and outcome
factor `0.7`, `Y` receives `1` and `1.3`, and `X`'s computed selection weight
is strictly below `Y`'s, so weight-proportional sampling favours `Y`. -/
theorem drillWeight_staleness_suppression
    (x y : DrillItem) (ds : DrillState) (nowTs : Int) (lts : Option Int)
    (hlw : x.lastWrongAt = y.lastWrongAt) (_hhs : x.historicSec = y.historicSec)
    (hhs0 : 0 ≤ y.historicSec)
    (hx : lookupA ds x.key = some ⟨nowTs - 60000, Outcome.correct, lts⟩)
    (hy : lookupA ds y.key = none)
    (hpos : 0 < nowTs - 60000) :
    reviewFactor ds nowTs x = 0.2 ∧ outcomeFactor ds x = 0.7 ∧
    reviewFactor ds nowTs y = 1 ∧ outcomeFactor ds y = 1.3 ∧
    drillWeight ds nowTs x < drillWeight ds nowTs y := by
  have hrfx : reviewFactor ds nowTs x = 0.2 := by
    unfold reviewFactor
    rw [hx]
    dsimp only
    rw [if_pos (by omega : nowTs - 60000 ≠ 0)]
    have harg : (nowTs - (nowTs - 60000) : Int) = 60000 := by omega
    rw [if_pos (by rw [harg]; norm_num)]
  have hofx : outcomeFactor ds x = 0.7 := by
    unfold outcomeFactor
    rw [hx]
    simp
  have hrfy : reviewFactor ds nowTs y = 1 := by
    unfold reviewFactor
    rw [hy]
  have hofy : outcomeFactor ds y = 1.3 := by
    unfold outcomeFactor
    rw [hy]
  refine ⟨hrfx, hofx, hrfy, hofy, ?_⟩
  unfold drillWeight
  rw [hrfx, hofx, hrfy, hofy]
  have hR : recencyBoost nowTs x = recencyBoost nowTs y := by
    unfold recencyBoost
    rw [hlw]
  rw [hR]
  obtain ⟨hR1, hR3⟩ := recencyBoost_bounds nowTs y
  have hSx : slowFactor ds x ≤ 2.5 := by
    unfold slowFactor
    have := min_le_left (1 : ℝ)
      ((match (⟨nowTs - 60000, Outcome.correct, lts⟩ : DrillRecord).lastTimeSec with
        | some t => (t : ℝ)
        | none => (x.historicSec : ℝ)) / 120)
    rw [hx]
    dsimp only
    nlinarith [min_le_left (1 : ℝ)
      ((match lts with | some t => (t : ℝ) | none => (x.historicSec : ℝ)) / 120)]
  have hSy : 1 ≤ slowFactor ds y := by
    unfold slowFactor
    rw [hy]
    dsimp only
    have h1 : (0 : ℝ) ≤ (y.historicSec : ℝ) / 120 := by
      apply div_nonneg _ (by norm_num)
      exact_mod_cast hhs0
    nlinarith [le_min zero_le_one h1]
  have hpx : recencyBoost nowTs y * slowFactor ds x * 0.2 * 0.7 ≤ 1.05 := by
    nlinarith
  have hpy : (1.3 : ℝ) < recencyBoost nowTs y * slowFactor ds y * 1 * 1.3 := by
    nlinarith
  calc max 0.05 (recencyBoost nowTs y * slowFactor ds x * 0.2 * 0.7)
      ≤ 1.05 := max_le (by norm_num) hpx
    _ < recencyBoost nowTs y * slowFactor ds y * 1 * 1.3 := by linarith
    _ ≤ max 0.05 (recencyBoost nowTs y * slowFactor ds y * 1 * 1.3) := le_max_right _ _

/-- Witness for C8: concrete items sharing `lastWrongAt = 100` and
`historicSec = 30`, with `X` reviewed at time 60000 (one minute before
`nowTs = 120000`) and `Y` unreviewed. -/
theorem drillWeight_staleness_suppression_witness :
    drillWeight [("math1|5", (⟨60000, Outcome.correct, none⟩ : DrillRecord))] 120000 itemEx
      < drillWeight [("math1|5", (⟨60000, Outcome.correct, none⟩ : DrillRecord))] 120000
          ⟨"math1|6", Subject.math1, 6, none, "", some "img", "", 100, 30⟩ :=
  (drillWeight_staleness_suppression itemEx
    ⟨"math1|6", Subject.math1, 6, none, "", some "img", "", 100, 30⟩
    [("math1|5", ⟨60000, Outcome.correct, none⟩)] 120000 none
    rfl rfl (by decide) (by decide) (by decide) (by decide)).2.2.2.2

/-! ## Claim C9: pin/unpin consistency -/

/-- C9: on the answer at `idx`, (i) setting the explanation to the empty string
while the screenshot is null forces `pinned` off, even if it was on;
(ii) removing the screenshot while the explanation is empty does the same;
(iii) `setExplanation` never turns `pinned` on: if the updated answer is
pinned, it was already pinned before. -/
theorem answer_pin_consistency (answers : List Answer) (idx : Nat) (current : Answer)
    (hidx : answers[idx]? = some current) :
    (current.screenshot = none →
      (setExplanation answers idx "")[idx]?
        = some { current with explanation := "", pinned := false }) ∧
    (current.explanation = "" →
      (setScreenshot answers idx none)[idx]?
        = some { current with screenshot := none, pinned := false }) ∧
    (∀ text next, (setExplanation answers idx text)[idx]? = some next →
      next.pinned = true → current.pinned = true) := by
  have hlt : idx < answers.length := by
    by_contra hcon
    rw [List.getElem?_eq_none (by omega)] at hidx
    exact Option.noConfusion hidx
  refine ⟨?_, ?_, ?_⟩
  · intro hshot
    unfold setExplanation
    rw [hidx]
    dsimp only
    rw [hshot]
    split
    · exact List.getElem?_set_self hlt
    · next h => exact absurd (by decide) h
  · intro hexp
    unfold setScreenshot
    rw [hidx]
    dsimp only
    rw [hexp]
    split
    · exact List.getElem?_set_self hlt
    · next h => exact absurd (by decide) h
  · intro text next hnext hpin
    unfold setExplanation at hnext
    rw [hidx] at hnext
    dsimp only at hnext
    rw [List.getElem?_set_self hlt, Option.some_inj] at hnext
    by_cases hsu : (jsTrim text = "" && ¬ strOptTruthy current.screenshot) = true
    · rw [if_pos hsu] at hnext
      rw [← hnext] at hpin
      exact absurd hpin (by simp)
    · rw [if_neg hsu] at hnext
      rw [← hnext] at hpin
      exact hpin

/-- Witness for C9: a pinned answer with empty explanation and no screenshot
is force-unpinned by `setExplanation ""`. -/
theorem answer_pin_consistency_witness :
    (setExplanation [⟨none, "", none, "note", true, none⟩] 0 "")[0]?
      = some ⟨none, "", none, "", false, none⟩ :=
  (answer_pin_consistency [⟨none, "", none, "note", true, none⟩] 0
    ⟨none, "", none, "note", true, none⟩ rfl).1 rfl

/-! ## Claim C10: loadDrillState totality and normalization -/

/-- C10: `loadDrillState` never fails and normalizes: absent, empty-string or
unparsable raw values and parsed primitives (string/boolean/number/null,
which have JS `typeof !== "object"` or are falsy) give the empty record;
an object gives one entry per stored entry; each normalized entry has
`lastReviewedAt` equal to the stored number, defaulting to `0` when missing
or non-numeric, `lastOutcome` equal to `"correct"` exactly when the stored
field is the string `"correct"` (anything else coerces to `"wrong"`), and
`lastTimeSec` present only as the stored number. -/
theorem loadDrillState_total_normalizing :
    (loadDrillState none = [] ∧ loadDrillState (some Raw.emptyStr) = [] ∧
      loadDrillState (some Raw.garbage) = []) ∧
    (∀ s, loadDrillState (some (Raw.jsonText (Json.str s))) = []) ∧
    (∀ b, loadDrillState (some (Raw.jsonText (Json.bool b))) = []) ∧
    (∀ n, loadDrillState (some (Raw.jsonText (Json.num n))) = []) ∧
    loadDrillState (some (Raw.jsonText Json.null)) = [] ∧
    (∀ fs, loadDrillState (some (Raw.jsonText (Json.obj fs)))
        = fs.map (fun kv => (kv.1, normDrillRecord kv.2))) ∧
    (∀ v, ((normDrillRecord v).lastOutcome = Outcome.correct ∨
            (normDrillRecord v).lastOutcome = Outcome.wrong) ∧
          ((normDrillRecord v).lastOutcome = Outcome.correct ↔
            getF v "lastOutcome" = some (Json.str "correct")) ∧
          (getF v "lastReviewedAt" = some (Json.num (normDrillRecord v).lastReviewedAt) ∨
            (normDrillRecord v).lastReviewedAt = 0) ∧
          (∀ n, (normDrillRecord v).lastTimeSec = some n →
            getF v "lastTimeSec" = some (Json.num n))) := by
  refine ⟨⟨rfl, rfl, rfl⟩, fun s => rfl, fun b => rfl, fun n => rfl, rfl, fun fs => rfl, ?_⟩
  intro v
  refine ⟨?_, ?_, ?_, ?_⟩
  · unfold normDrillRecord
    dsimp only
    cases hg : getF v "lastOutcome" with
    | none => exact Or.inr rfl
    | some j =>
        cases j with
        | str t =>
            by_cases ht : t = "correct"
            · subst ht
              exact Or.inl (by simp)
            · exact Or.inr (by simp [ht])
        | null => exact Or.inr rfl
        | bool b => exact Or.inr rfl
        | num n => exact Or.inr rfl
        | arr xs => exact Or.inr rfl
        | obj fs => exact Or.inr rfl
  · unfold normDrillRecord
    dsimp only
    constructor
    · intro h
      cases hg : getF v "lastOutcome" with
      | none => rw [hg] at h; exact absurd h (by simp)
      | some j =>
          rw [hg] at h
          cases j with
          | str t =>
              by_cases ht : t = "correct"
              · rw [ht]
              · simp [ht] at h
          | null => exact absurd h (by simp)
          | bool b => exact absurd h (by simp)
          | num n => exact absurd h (by simp)
          | arr xs => exact absurd h (by simp)
          | obj fs => exact absurd h (by simp)
    · intro h
      rw [h]
      simp
  · unfold normDrillRecord
    dsimp only
    cases hg : getF v "lastReviewedAt" with
    | none => exact Or.inr rfl
    | some j =>
        cases j with
        | num n => exact Or.inl rfl
        | null => exact Or.inr rfl
        | bool b => exact Or.inr rfl
        | str t => exact Or.inr rfl
        | arr xs => exact Or.inr rfl
        | obj fs => exact Or.inr rfl
  · intro n
    unfold normDrillRecord
    dsimp only
    cases hg : getF v "lastTimeSec" with
    | none => intro h; exact absurd h (by simp)
    | some j =>
        cases j with
        | num m => intro h; rw [Option.some_inj] at h; rw [h]
        | null => intro h; exact absurd h (by simp)
        | bool b => intro h; exact absurd h (by simp)
        | str t => intro h; exact absurd h (by simp)
        | arr xs => intro h; exact absurd h (by simp)
        | obj fs => intro h; exact absurd h (by simp)

/-- Witness for C10: a concrete entry with a non-numeric `lastReviewedAt`, an
unknown outcome string and a missing `lastTimeSec` is coerced to the
defaults. -/
theorem loadDrillState_total_normalizing_witness :
    loadDrillState (some (Raw.jsonText (Json.obj
        [("math1|5", Json.obj [("lastReviewedAt", Json.str "late"),
                               ("lastOutcome", Json.str "meh")])])))
      = [("math1|5", ⟨0, Outcome.wrong, none⟩)] :=
  (loadDrillState_total_normalizing.2.2.2.2.2.1
    [("math1|5", Json.obj [("lastReviewedAt", Json.str "late"),
                           ("lastOutcome", Json.str "meh")])]).trans rfl
